import Mathlib

/-!
Verification of the GitLab CODEOWNERS checker (`codeowners.py`).

The core of the script is modelled shallowly:

* `read_codeowners_file` (lines 88-116): parse a manifest's text into a set
  of owner usernames; a missing file or a read error contributes the empty
  set, an error additionally produces a diagnostic line.
* `get_codeowners_for_file` (lines 118-141): walk from the file's containing
  directory up through the parents, unioning the owners declared in every
  `CODEOWNERS.md` on the way, and finally union in the root manifest.
* `validate_approvals` (lines 143-202): fail fast on an empty approver list,
  pass on an empty changed-file list, otherwise give each file a verdict and
  pass iff no file failed.

Paths follow CPython's `pathlib.PurePosixPath`: `'.'` and empty segments are
dropped, `'..'` is kept (no normalisation), a path starting with exactly two
slashes has the special POSIX root `'//'` (one or three-or-more slashes give
root `'/'`), and `parent` drops the last segment, fixing `'.'`, `'/'` and
`'//'`.  `posixJoin` follows `os.path.join`: an absolute right operand
discards everything to its left.  The filesystem is a function from path
strings to a read outcome, and the `while True` walk loop is modelled with
fuel, returning `none` when the loop does not terminate.

Strings are handled at the character-list level.  Python's `str.split()`
splits on runs of whitespace; `str.splitlines()` is modelled as splitting on
`'\n'` (the model produces one extra empty line for a trailing newline,
which the parser skips, so parse results agree).
-/

/-- The ASCII whitespace characters recognised by Python's `str.strip()` and
`str.split()`. -/
def pyWhite (c : Char) : Bool :=
  c = ' ' || c = '\t' || c = '\n' || c = '\r' || c = '\x0b' || c = '\x0c'

/-- Split a character list at every separator character, keeping empty
pieces (as Python's `str.split(sep)` does). -/
def splitChars (sep : Char → Bool) : List Char → List (List Char)
  | [] => [[]]
  | c :: rest =>
    if sep c then [] :: splitChars sep rest
    else match splitChars sep rest with
      | [] => [[c]]
      | piece :: pieces => (c :: piece) :: pieces

/-- Python `str.strip()` on a character list (ASCII whitespace). -/
def stripChars (l : List Char) : List Char :=
  ((l.dropWhile pyWhite).reverse.dropWhile pyWhite).reverse

/-- Python `str.split()` with no separator: split on whitespace runs and
drop the empty pieces. -/
def whitespaceTokens (l : List Char) : List (List Char) :=
  (splitChars pyWhite l).filter (· ≠ [])

/-- Python `str.splitlines()`, modelled as splitting at `'\n'`. -/
def splitLines (s : String) : List (List Char) :=
  splitChars (· = '\n') s.toList

/-- The owners contributed by one whitespace-separated token of a manifest
line, exactly as the loop body at `codeowners.py:104-109` adds them:
a token starting with `'@'` contributes the rest of the token, a token
starting with `'/'` or `'*'` contributes nothing, and any other token
contributes itself. -/
def tokenOwners (t : List Char) : List String :=
  match t with
  | [] => []
  | c :: rest =>
    if c = '@' then [String.mk rest]
    else if c = '/' || c = '*' then []
    else [String.mk (c :: rest)]

/-- The owners contributed by one manifest line (`codeowners.py:96-109`):
strip it, skip it when blank or a `#` comment, otherwise collect the owners
of every whitespace-separated token. -/
def lineOwners (l : List Char) : List String :=
  let t := stripChars l
  if t = [] || t.head? = some '#' then []
  else (whitespaceTokens t).flatMap tokenOwners

/-- Parse a whole manifest text into its owner set
(`codeowners.py:94-111`). -/
def parseOwners (content : String) : Finset String :=
  ((splitLines content).flatMap lineOwners).toFinset

/-- Outcome of reading one file: contents, a clean "no such file", or any
other read error (permission, encoding, ...). -/
inductive ReadResult where
  | found (content : String)
  | absent
  | err (msg : String)
deriving DecidableEq, Repr

/-- The filesystem as seen through `open(...).read()`: path string to
outcome. -/
def FS : Type := String → ReadResult

/-- The function `read_codeowners_file` (`codeowners.py:88-116`): the owner set of the
manifest at `p`.  `FileNotFoundError` and every other exception both yield
the empty set. -/
def read_codeowners_file (fs : FS) (p : String) : Finset String :=
  match fs p with
  | .found c => parseOwners c
  | .absent => ∅
  | .err _ => ∅

/-- The diagnostic lines printed by `read_codeowners_file`: one `line:`
print per manifest line when the read succeeds (`codeowners.py:96`), nothing
for a missing file (the exception is raised before the loop), and one error
line for any other exception (`codeowners.py:115`). -/
def read_codeowners_diags (fs : FS) (p : String) : List String :=
  match fs p with
  | .found c => (splitLines c).map (fun l => "line: " ++ String.mk l)
  | .absent => []
  | .err m => ["Error reading CODEOWNERS file " ++ p ++ ": " ++ m]

/-- The root of a `PurePosixPath`: relative, `'/'`, or the special POSIX
double-slash root `'//'`. -/
inductive RootKind where
  | rel
  | abs
  | abs2
deriving DecidableEq, Repr

/-- A `pathlib.PurePosixPath`: a root kind and the non-empty, non-`'.'`
segments (`'..'` segments are kept, as pathlib keeps them). -/
structure PPath where
  root : RootKind
  segs : List String
deriving DecidableEq, Repr

/-- Parsing, as `PurePosixPath(s)` does it: a path starting with exactly two slashes gets root
`'//'`; one or three-or-more slashes give root `'/'`; otherwise relative.
Empty and `'.'` segments are dropped. -/
def parsePath (s : String) : PPath :=
  let cs := s.toList
  let root : RootKind :=
    match cs with
    | '/' :: '/' :: '/' :: _ => .abs
    | '/' :: '/' :: _ => .abs2
    | '/' :: _ => .abs
    | _ => .rel
  let segs :=
    ((splitChars (· = '/') cs).filter (fun t => t ≠ [] && t ≠ ['.'])).map String.mk
  ⟨root, segs⟩

/-- Join segments with `'/'`. -/
def joinSegs : List String → String
  | [] => ""
  | [s] => s
  | s :: rest => s ++ "/" ++ joinSegs rest

/-- Rendering, as `str(PurePosixPath)` does it: `'.'` for the empty relative path, the root prefix
followed by the `'/'`-joined segments otherwise. -/
def pathStr (p : PPath) : String :=
  match p.root, p.segs with
  | .rel, [] => "."
  | .rel, segs => joinSegs segs
  | .abs, segs => "/" ++ joinSegs segs
  | .abs2, segs => "//" ++ joinSegs segs

/-- The parent, as `PurePosixPath.parent` computes it: drop the last segment; a rootless or bare-root
path is its own parent. -/
def pathParent (p : PPath) : PPath :=
  if p.segs = [] then p else ⟨p.root, p.segs.dropLast⟩

/-- Does the string start with `'/'`? -/
def startsWithSlash (s : String) : Bool :=
  decide (s.toList.head? = some '/')

/-- Does the string end with `'/'`? -/
def endsWithSlash (s : String) : Bool :=
  decide (s.toList.getLast? = some '/')

/-- Joining, as `os.path.join` does it, for two POSIX components: an absolute right operand
discards the left one. -/
def posixJoin (a b : String) : String :=
  if startsWithSlash b then b
  else if a = "" then b
  else if endsWithSlash a then a ++ b
  else a ++ "/" ++ b

/-- The manifest location probed for directory `d`
(`codeowners.py:126`): `os.path.join(ci_project_dir, current_path,
'CODEOWNERS.md')`. -/
def manifestPath (projectDir : String) (d : PPath) : String :=
  posixJoin (posixJoin projectDir (pathStr d)) "CODEOWNERS.md"

/-- The loop exit test (`codeowners.py:132`):
`current_path == Path('.') or current_path == Path('/')`. -/
def stopDir (p : PPath) : Bool :=
  p = ⟨.rel, []⟩ || p = ⟨.abs, []⟩

/-- The `while True` walk (`codeowners.py:125-135`), with fuel: the list of
directories visited (each is read before the exit test runs), `none` when
the fuel runs out before the exit test succeeds. -/
def walkFuel : Nat → PPath → Option (List PPath)
  | 0, _ => none
  | n + 1, p =>
    if stopDir p then some [p]
    else (walkFuel n (pathParent p)).map (p :: ·)

/-- The directories visited by the walk starting at `p`.  Fuel
`p.segs.length + 1` suffices whenever the loop terminates at all; `none`
means the source loop never exits. -/
def walkChain (p : PPath) : Option (List PPath) :=
  walkFuel (p.segs.length + 1) p

/-- The function `get_codeowners_for_file` (`codeowners.py:118-141`): union the owners
declared in every directory the walk visits, then unconditionally union in
the root manifest (`codeowners.py:138-139`).  `none` when the walk loop
diverges. -/
def get_codeowners_for_file (projectDir : String) (fs : FS) (filePath : String) :
    Option (Finset String) :=
  (walkChain (pathParent (parsePath filePath))).map fun dirs =>
    dirs.foldl (fun acc d => acc ∪ read_codeowners_file fs (manifestPath projectDir d)) ∅
      ∪ read_codeowners_file fs (posixJoin projectDir "CODEOWNERS.md")

/-- The manifest locations `get_codeowners_for_file` opens, in order: one
per visited directory, then the root manifest.  Independent of the
filesystem contents. -/
def resolveReads (projectDir : String) (filePath : String) : Option (List String) :=
  (walkChain (pathParent (parsePath filePath))).map fun dirs =>
    dirs.map (manifestPath projectDir) ++ [posixJoin projectDir "CODEOWNERS.md"]

/-- The verdict the per-file loop body gives one file
(`codeowners.py:178-193`): no owners found, or pass/fail by whether some
approver is an owner. -/
inductive Verdict where
  | pass
  | fail
  | noOwners
deriving DecidableEq, Repr

/-- Lines `codeowners.py:178-193` for one file, given its resolved owner set. -/
def fileVerdict (approvers : Finset String) (owners : Finset String) : Verdict :=
  if owners = ∅ then .noOwners
  else if approvers ∩ owners ≠ ∅ then .pass
  else .fail

/-- The per-file loop (`codeowners.py:172-193`): each file's verdict in
input order; `none` as soon as one resolution diverges. -/
def validateFiles (projectDir : String) (fs : FS) (approvers : Finset String) :
    List String → Option (List (String × Verdict))
  | [] => some []
  | f :: rest =>
    match get_codeowners_for_file projectDir fs f with
    | none => none
    | some owners =>
      (validateFiles projectDir fs approvers rest).map
        (fun vs => (f, fileVerdict approvers owners) :: vs)

/-- The distinct outcomes of `validate_approvals`, one per return site:
the "no approvals found" fast fail (`codeowners.py:153-155`), the "no files
changed" immediate pass (`codeowners.py:161-163`), and a completed run with
its per-file verdicts and overall boolean (`codeowners.py:195-202`). -/
inductive RunResult where
  | noApprovals
  | noChanges
  | completed (verdicts : List (String × Verdict)) (ok : Bool)
deriving DecidableEq, Repr

/-- The function `validate_approvals` (`codeowners.py:143-202`), with the approver list
and changed-file list (as fetched from the API) passed in.  The overall
boolean is true iff no file's verdict is `fail`
(`validation_failed` stays false). -/
def validate_approvals (projectDir : String) (fs : FS)
    (approvers : List String) (changedFiles : List String) : Option RunResult :=
  if approvers = [] then some .noApprovals
  else if changedFiles = [] then some .noChanges
  else
    (validateFiles projectDir fs approvers.toFinset changedFiles).map fun vs =>
      .completed vs (decide (∀ v ∈ vs, v.2 ≠ Verdict.fail))

/-- The manifest locations a whole `validate_approvals` run opens: none on
either early return, otherwise every file's reads in order. -/
def validateReads (projectDir : String)
    (approvers : List String) (changedFiles : List String) : Option (List String) :=
  if approvers = [] then some []
  else if changedFiles = [] then some []
  else (changedFiles.mapM (resolveReads projectDir)).map List.flatten

/-- The owners one token contributes according to the claim's wording: the
token without its leading `@` if it starts with `@`; the token as-is if it
starts with neither `@` nor `/` nor `*`; nothing if it starts with `/` or
`*`.  Written from the spec sentence, to be compared with `tokenOwners`. -/
def specTokenOwner (t : List Char) : List String :=
  if t.head? = some '@' then [String.mk (t.drop 1)]
  else if t.head? = some '/' ∨ t.head? = some '*' then []
  else [String.mk t]

/-- The owners one manifest line contributes according to the spec: skip
blank and `#`-comment lines after trimming, classify each
whitespace-separated token by `specTokenOwner`. -/
def specLineOwners (l : List Char) : List String :=
  let t := stripChars l
  if t = [] ∨ t.head? = some '#' then []
  else (whitespaceTokens t).flatMap specTokenOwner

/-- The spec-side description of manifest parsing, to be compared with
`parseOwners`. -/
def specParse (content : String) : Finset String :=
  ((splitLines content).flatMap specLineOwners).toFinset

/-- Two successive resolutions of the same file within one run.  The script
keeps no state between calls — `codeowners.py` has no cache anywhere — so
the second call is the same computation again. -/
def resolveTwice (projectDir : String) (fs : FS) (filePath : String) :
    Option (Finset String × Finset String) :=
  match get_codeowners_for_file projectDir fs filePath,
      get_codeowners_for_file projectDir fs filePath with
  | some s₁, some s₂ => some (s₁, s₂)
  | _, _ => none

/-- The manifest locations opened by two successive resolutions of the same
file: each call opens its full list again. -/
def resolveTwiceReads (projectDir filePath : String) : Option (List String) :=
  match resolveReads projectDir filePath, resolveReads projectDir filePath with
  | some l₁, some l₂ => some (l₁ ++ l₂)
  | _, _ => none

/-- Is `q` at or below the directory `projectDir`: `q` extends
`projectDir ++ "/"` and the remainder contains no `..` component. -/
def belowRoot (projectDir q : String) : Bool :=
  (projectDir.toList ++ ['/']).isPrefixOf q.toList &&
  decide (['.', '.'] ∉ splitChars (fun c => c = '/') (q.toList.drop (projectDir.toList.length + 1)))

/-- Fixture filesystem: only the repository-root manifest exists and
declares `@alice`. -/
def fsAlice : FS := fun p =>
  if p = "./CODEOWNERS.md" then .found "@alice" else .absent

/-- Fixture filesystem: `fsAlice` plus a `src/` manifest declaring
`@bob`. -/
def fsAliceBob : FS := fun p =>
  if p = "./src/CODEOWNERS.md" then .found "@bob" else fsAlice p

/-- Fixture filesystem: `fsAlice`, but reading the `src/` manifest fails
with a permission error. -/
def fsErrSrc : FS := fun p =>
  if p = "./src/CODEOWNERS.md" then .err "Permission denied" else fsAlice p

/-! ### Basic lemmas about splitting and folding -/

lemma splitChars_ne_nil (sep : Char → Bool) (l : List Char) :
    splitChars sep l ≠ [] := by
  cases l with
  | nil => simp [splitChars]
  | cons c rest =>
    simp only [splitChars]
    split
    · simp
    · split <;> simp

lemma splitChars_cons_sep (sep : Char → Bool) (c : Char) (l : List Char)
    (h : sep c = true) : splitChars sep (c :: l) = [] :: splitChars sep l := by
  simp [splitChars, h]

lemma splitChars_cons_not_sep (sep : Char → Bool) (c : Char) (l : List Char)
    (p : List Char) (ps : List (List Char))
    (h : sep c = false) (hl : splitChars sep l = p :: ps) :
    splitChars sep (c :: l) = (c :: p) :: ps := by
  simp [splitChars, h, hl]

lemma splitChars_append (sep : Char → Bool) (c : Char) (h : sep c = true)
    (l₁ l₂ : List Char) :
    splitChars sep (l₁ ++ c :: l₂) = splitChars sep l₁ ++ splitChars sep l₂ := by
  induction l₁ with
  | nil =>
    rw [List.nil_append, splitChars_cons_sep sep c l₂ h]
    rfl
  | cons a as ih =>
    by_cases ha : sep a = true
    · rw [List.cons_append, splitChars_cons_sep sep a _ ha,
        splitChars_cons_sep sep a as ha, ih, List.cons_append]
    · have ha' : sep a = false := by simpa using ha
      cases hq : splitChars sep as with
      | nil => exact absurd hq (splitChars_ne_nil sep as)
      | cons q qs =>
        have hx : splitChars sep (as ++ c :: l₂) = q :: (qs ++ splitChars sep l₂) := by
          rw [ih, hq]; rfl
        rw [List.cons_append, splitChars_cons_not_sep sep a _ _ _ ha' hx,
          splitChars_cons_not_sep sep a as q qs ha' hq]
        rfl

lemma splitChars_no_sep (sep : Char → Bool) (l : List Char)
    (h : ∀ c ∈ l, sep c = false) : splitChars sep l = [l] := by
  induction l with
  | nil => simp [splitChars]
  | cons a as ih =>
    have ha : sep a = false := h a (List.mem_cons_self a as)
    have hs : splitChars sep as = [as] := ih (fun c hc => h c (List.mem_cons_of_mem a hc))
    rw [splitChars_cons_not_sep sep a as as [] ha hs]

lemma mem_splitChars_no_sep (sep : Char → Bool) (l p : List Char)
    (hp : p ∈ splitChars sep l) : ∀ c ∈ p, sep c = false := by
  induction l generalizing p with
  | nil =>
    simp [splitChars] at hp
    subst hp; simp
  | cons a as ih =>
    by_cases ha : sep a = true
    · rw [splitChars_cons_sep sep a as ha] at hp
      rcases List.mem_cons.mp hp with h1 | h2
      · subst h1; simp
      · exact ih p h2
    · have ha' : sep a = false := by simpa using ha
      cases hq : splitChars sep as with
      | nil => exact absurd hq (splitChars_ne_nil sep as)
      | cons q qs =>
        rw [splitChars_cons_not_sep sep a as q qs ha' hq] at hp
        rcases List.mem_cons.mp hp with h1 | h2
        · subst h1
          intro x hx
          rcases List.mem_cons.mp hx with h3 | h4
          · subst h3; exact ha'
          · exact ih q (by rw [hq]; exact List.mem_cons_self q qs) x h4
        · exact ih p (by rw [hq]; exact List.mem_cons_of_mem q h2)

lemma mem_whitespaceTokens_ne_nil (l t : List Char)
    (h : t ∈ whitespaceTokens l) : t ≠ [] := by
  unfold whitespaceTokens at h
  have := List.of_mem_filter h
  simpa using this

lemma flatMap_congr_mem {α β : Type} (l : List α) (f g : α → List β)
    (h : ∀ a ∈ l, f a = g a) : l.flatMap f = l.flatMap g := by
  induction l with
  | nil => rfl
  | cons a as ih =>
    simp only [List.flatMap_cons]
    rw [h a (List.mem_cons_self a as), ih (fun x hx => h x (List.mem_cons_of_mem a hx))]

lemma mem_foldl_union {β : Type} (g : β → Finset String) (l : List β)
    (init : Finset String) (x : String) :
    x ∈ l.foldl (fun acc d => acc ∪ g d) init ↔ x ∈ init ∨ ∃ d ∈ l, x ∈ g d := by
  induction l generalizing init with
  | nil => simp
  | cons a as ih =>
    simp only [List.foldl_cons, ih, Finset.mem_union, List.mem_cons]
    constructor
    · rintro ((h | h) | ⟨d, hd, hxd⟩)
      · exact Or.inl h
      · exact Or.inr ⟨a, Or.inl rfl, h⟩
      · exact Or.inr ⟨d, Or.inr hd, hxd⟩
    · rintro (h | ⟨d, (rfl | hd), hxd⟩)
      · exact Or.inl (Or.inl h)
      · exact Or.inl (Or.inr hxd)
      · exact Or.inr ⟨d, hd, hxd⟩

/-! ### C4: the parser follows the spec's token rules -/

lemma tokenOwners_eq_spec (t : List Char) (h : t ≠ []) :
    tokenOwners t = specTokenOwner t := by
  cases t with
  | nil => exact absurd rfl h
  | cons c rest =>
    by_cases hc : c = '@'
    · subst hc; simp [tokenOwners, specTokenOwner]
    · by_cases hs : c = '/' ∨ c = '*'
      · rcases hs with rfl | rfl <;> simp [tokenOwners, specTokenOwner, hc]
      · push_neg at hs
        simp [tokenOwners, specTokenOwner, hc, hs.1, hs.2]

lemma lineOwners_eq_spec (l : List Char) : lineOwners l = specLineOwners l := by
  unfold lineOwners specLineOwners
  by_cases h1 : stripChars l = []
  · simp [h1]
  · by_cases h2 : (stripChars l).head? = some '#'
    · simp [h1, h2]
    · simp only [h1, h2, Bool.or_eq_true, decide_eq_true_eq, or_self, if_neg,
        not_or, and_true]
      rw [if_neg (by simp [h1, h2]), if_neg (by tauto)]
      exact flatMap_congr_mem _ _ _
        (fun t ht => tokenOwners_eq_spec t (mem_whitespaceTokens_ne_nil _ t ht))

/-- C4: for every manifest text, `parse` returns exactly the set the spec's
token rules describe — skip blank and `#`-comment lines after trimming, add
`@`-tokens without the marker, add bare tokens as-is, discard `/`- and
`*`-tokens — and the line `/docs/* @dave` parses to the owner set
`{dave}`. -/
theorem parse_matches_spec_token_rules :
    (∀ content : String, parseOwners content = specParse content) ∧
    parseOwners "/docs/* @dave" = ({"dave"} : Finset String) := by
  constructor
  · intro content
    unfold parseOwners specParse
    rw [flatMap_congr_mem _ _ _ (fun l _ => lineOwners_eq_spec l)]
  · decide

/-! ### C5 and C6: the two early returns of `validate_approvals` -/

/-- C5: with an empty approver set, `validate_approvals` fails immediately
with the distinct "no approvals" result, producing no per-file verdict and
reading no manifest (no per-file resolution happens). -/
theorem validate_empty_approvers_fast_fail (projectDir : String) (fs : FS)
    (changedFiles : List String) :
    validate_approvals projectDir fs [] changedFiles = some RunResult.noApprovals ∧
    validateReads projectDir [] changedFiles = some [] := by
  constructor <;> simp [validate_approvals, validateReads]

/-- C6: with a non-empty approver set and an empty changed-file list,
`validate_approvals` passes immediately with the "no files changed" result
and reads no manifest (no ownership is resolved). -/
theorem validate_empty_changed_vacuous_pass (projectDir : String) (fs : FS)
    (approvers : List String) (h : approvers ≠ []) :
    validate_approvals projectDir fs approvers [] = some RunResult.noChanges ∧
    validateReads projectDir approvers [] = some [] := by
  constructor <;> simp [validate_approvals, validateReads, h]

/-- Witness for C6 at a concrete approver list. -/
theorem validate_empty_changed_vacuous_pass_witness :
    (["alice"] : List String) ≠ [] ∧
    (validate_approvals "." fsAlice ["alice"] [] = some RunResult.noChanges ∧
     validateReads "." ["alice"] [] = some []) :=
  ⟨by decide, validate_empty_changed_vacuous_pass "." fsAlice ["alice"] (by decide)⟩

/-! ### C2: root-manifest owners are in every resolved owner set -/

/-- C2: whenever resolution completes, the owners declared in the
repository-root manifest are a subset of the file's resolved owner set,
whatever the file's path and depth. -/
theorem root_manifest_subset_resolved (projectDir filePath : String) (fs : FS)
    (s : Finset String)
    (h : get_codeowners_for_file projectDir fs filePath = some s) :
    read_codeowners_file fs (posixJoin projectDir "CODEOWNERS.md") ⊆ s := by
  unfold get_codeowners_for_file at h
  rw [Option.map_eq_some'] at h
  obtain ⟨dirs, -, rfl⟩ := h
  exact Finset.subset_union_right

/-- Witness for C2 at a depth-two file. -/
theorem root_manifest_subset_resolved_witness :
    get_codeowners_for_file "." fsAlice "src/sub/b.txt" = some {"alice"} ∧
    read_codeowners_file fsAlice (posixJoin "." "CODEOWNERS.md") ⊆ ({"alice"} : Finset String) :=
  ⟨by decide, root_manifest_subset_resolved "." "src/sub/b.txt" fsAlice {"alice"} (by decide)⟩

/-! ### C1: the overall verdict of a completed run -/

lemma fileVerdict_ne_fail (A s : Finset String) :
    fileVerdict A s ≠ Verdict.fail ↔ (s = ∅ ∨ A ∩ s ≠ ∅) := by
  by_cases h1 : s = ∅
  · simp [fileVerdict, h1]
  · by_cases h2 : A ∩ s ≠ ∅
    · simp [fileVerdict, h1, h2]
    · simp [fileVerdict, h1, h2]

lemma validateFiles_eq_some_forall (projectDir : String) (fs : FS)
    (A : Finset String) (l : List String) (vs : List (String × Verdict))
    (h : validateFiles projectDir fs A l = some vs) :
    ((∀ v ∈ vs, v.2 ≠ Verdict.fail) ↔
      ∀ f ∈ l, ∀ s, get_codeowners_for_file projectDir fs f = some s →
        fileVerdict A s ≠ Verdict.fail) := by
  induction l generalizing vs with
  | nil =>
    simp only [validateFiles, Option.some_inj] at h
    subst h
    simp
  | cons f rest ih =>
    simp only [validateFiles] at h
    cases hg : get_codeowners_for_file projectDir fs f with
    | none => rw [hg] at h; exact absurd h (by simp)
    | some s =>
      rw [hg] at h
      rw [Option.map_eq_some'] at h
      obtain ⟨vs', hvs', rfl⟩ := h
      have hih := ih vs' hvs'
      constructor
      · intro hall f' hf' s' hs'
        rcases List.mem_cons.mp hf' with rfl | hf'
        · rw [hg] at hs'
          cases hs'
          exact hall _ (List.mem_cons_self _ _)
        · exact (hih.mp (fun v hv => hall v (List.mem_cons_of_mem _ hv))) f' hf' s' hs'
      · intro hall v hv
        rcases List.mem_cons.mp hv with rfl | hv
        · exact hall f (List.mem_cons_self _ _) s hg
        · exact (hih.mpr (fun f' hf' s' hs' => hall f' (List.mem_cons_of_mem _ hf') s' hs')) v hv

lemma validateFiles_noOwners_mem (projectDir : String) (fs : FS)
    (A : Finset String) (l : List String) (vs : List (String × Verdict))
    (h : validateFiles projectDir fs A l = some vs) (f : String) (hf : f ∈ l)
    (hres : get_codeowners_for_file projectDir fs f = some ∅) :
    (f, Verdict.noOwners) ∈ vs := by
  induction l generalizing vs with
  | nil => simp at hf
  | cons a rest ih =>
    simp only [validateFiles] at h
    cases hg : get_codeowners_for_file projectDir fs a with
    | none => rw [hg] at h; exact absurd h (by simp)
    | some s =>
      rw [hg] at h
      rw [Option.map_eq_some'] at h
      obtain ⟨vs', hvs', rfl⟩ := h
      rcases List.mem_cons.mp hf with rfl | hf
      · rw [hg] at hres
        injection hres with hs
        subst hs
        have hv : fileVerdict A ∅ = Verdict.noOwners := by simp [fileVerdict]
        exact List.mem_cons.mpr (Or.inl (by rw [hv]))
      · exact List.mem_cons_of_mem _ (ih vs' hvs' hf)

/-- C1: on a completed run with non-empty changed files and approvers, the
overall result is pass iff no changed file fails, where a file fails exactly
when its resolved owner set is non-empty and disjoint from the approver set;
a file resolving to an empty owner set gets the non-failing "no owners"
verdict. -/
theorem validate_overall_pass_iff_no_file_fails
    (projectDir : String) (fs : FS) (approvers changedFiles : List String)
    (vs : List (String × Verdict)) (ok : Bool)
    (hchanged : changedFiles ≠ []) (happrovers : approvers ≠ [])
    (h : validate_approvals projectDir fs approvers changedFiles =
      some (RunResult.completed vs ok)) :
    (ok = true ↔
      ∀ f ∈ changedFiles, ∀ s, get_codeowners_for_file projectDir fs f = some s →
        s = ∅ ∨ approvers.toFinset ∩ s ≠ ∅) ∧
    (∀ f ∈ changedFiles, get_codeowners_for_file projectDir fs f = some ∅ →
      (f, Verdict.noOwners) ∈ vs) := by
  unfold validate_approvals at h
  rw [if_neg happrovers, if_neg hchanged, Option.map_eq_some'] at h
  obtain ⟨vs0, hvf, heq⟩ := h
  injection heq with h1 h2
  subst h1
  subst h2
  constructor
  · rw [decide_eq_true_eq, validateFiles_eq_some_forall _ _ _ _ _ hvf]
    constructor
    · intro hall f hf s hs
      exact (fileVerdict_ne_fail _ _).mp (hall f hf s hs)
    · intro hall f hf s hs
      exact (fileVerdict_ne_fail _ _).mpr (hall f hf s hs)
  · intro f hf hres
    exact validateFiles_noOwners_mem _ _ _ _ _ hvf f hf hres

/-- Witness for C1 at a one-file change set approved by its root owner. -/
theorem validate_overall_pass_iff_no_file_fails_witness :
    (["a.txt"] : List String) ≠ [] ∧ (["alice"] : List String) ≠ [] ∧
    validate_approvals "." fsAlice ["alice"] ["a.txt"] =
      some (RunResult.completed [("a.txt", Verdict.pass)] true) ∧
    (((true : Bool) = true ↔
      ∀ f ∈ (["a.txt"] : List String), ∀ s,
        get_codeowners_for_file "." fsAlice f = some s →
          s = ∅ ∨ (["alice"] : List String).toFinset ∩ s ≠ ∅) ∧
    (∀ f ∈ (["a.txt"] : List String),
      get_codeowners_for_file "." fsAlice f = some ∅ →
        (f, Verdict.noOwners) ∈ [("a.txt", Verdict.pass)])) :=
  ⟨by decide, by decide, by decide,
    validate_overall_pass_iff_no_file_fails "." fsAlice ["alice"] ["a.txt"]
      [("a.txt", Verdict.pass)] true (by decide) (by decide) (by decide)⟩

/-! ### C3: resolution is a pure union over the ancestor chain -/

/-- C3: growing the parsed owners of any single manifest location (e.g. an
ancestor directory of the file) can only grow the file's resolved owner set,
and no manifest of the walked chain is shadowed: every directory the walk
visits contributes all its owners to the result. -/
theorem resolve_union_monotone_no_override
    (projectDir q filePath : String) (fs fs' : FS) (s s' : Finset String)
    (hgrow : read_codeowners_file fs q ⊆ read_codeowners_file fs' q)
    (hother : ∀ r, r ≠ q → read_codeowners_file fs' r = read_codeowners_file fs r)
    (hs : get_codeowners_for_file projectDir fs filePath = some s)
    (hs' : get_codeowners_for_file projectDir fs' filePath = some s') :
    s ⊆ s' ∧
    ∀ dirs, walkChain (pathParent (parsePath filePath)) = some dirs →
      ∀ d ∈ dirs, read_codeowners_file fs (manifestPath projectDir d) ⊆ s := by
  have hpoint : ∀ r, read_codeowners_file fs r ⊆ read_codeowners_file fs' r := by
    intro r
    by_cases hr : r = q
    · subst hr; exact hgrow
    · rw [hother r hr]
  unfold get_codeowners_for_file at hs hs'
  rw [Option.map_eq_some'] at hs hs'
  obtain ⟨dirs, hdirs, rfl⟩ := hs
  obtain ⟨dirs', hdirs', rfl⟩ := hs'
  rw [hdirs] at hdirs'
  injection hdirs' with hdd
  subst hdd
  constructor
  · intro x hx
    rcases Finset.mem_union.mp hx with hx | hx
    · rw [mem_foldl_union] at hx
      rcases hx with h0 | ⟨d, hd, hxd⟩
      · exact absurd h0 (by simp)
      · exact Finset.mem_union_left _
          ((mem_foldl_union _ _ _ _).mpr (Or.inr ⟨d, hd, hpoint _ hxd⟩))
    · exact Finset.mem_union_right _ (hpoint _ hx)
  · intro dirs0 hdirs0 d hd x hx
    rw [hdirs] at hdirs0
    injection hdirs0 with hdd0
    subst hdd0
    exact Finset.mem_union_left _
      ((mem_foldl_union _ _ _ _).mpr (Or.inr ⟨d, hd, hx⟩))

/-- Witness for C3: declaring `@bob` in the `src/` manifest grows the owner
set of `src/a.txt` from `{alice}` to `{alice, bob}`. -/
theorem resolve_union_monotone_no_override_witness :
    read_codeowners_file fsAlice "./src/CODEOWNERS.md" ⊆
      read_codeowners_file fsAliceBob "./src/CODEOWNERS.md" ∧
    (∀ r, r ≠ "./src/CODEOWNERS.md" →
      read_codeowners_file fsAliceBob r = read_codeowners_file fsAlice r) ∧
    get_codeowners_for_file "." fsAlice "src/a.txt" = some {"alice"} ∧
    get_codeowners_for_file "." fsAliceBob "src/a.txt" = some {"bob", "alice"} ∧
    (({"alice"} : Finset String) ⊆ {"bob", "alice"} ∧
      ∀ dirs, walkChain (pathParent (parsePath "src/a.txt")) = some dirs →
        ∀ d ∈ dirs, read_codeowners_file fsAlice (manifestPath "." d) ⊆ {"alice"}) :=
  ⟨by decide,
   fun r hr => by simp [read_codeowners_file, fsAliceBob, hr],
   by decide,
   by rfl,
   resolve_union_monotone_no_override "." "./src/CODEOWNERS.md" "src/a.txt"
     fsAlice fsAliceBob {"alice"} {"bob", "alice"}
     (by decide)
     (fun r hr => by simp [read_codeowners_file, fsAliceBob, hr])
     (by decide) (by rfl)⟩

/-! ### C9: a manifest read error degrades to an empty owner set -/

lemma get_codeowners_congr (projectDir : String) (fs fs' : FS)
    (h : ∀ r, read_codeowners_file fs' r = read_codeowners_file fs r)
    (filePath : String) :
    get_codeowners_for_file projectDir fs' filePath =
      get_codeowners_for_file projectDir fs filePath := by
  unfold get_codeowners_for_file
  cases walkChain (pathParent (parsePath filePath)) with
  | none => rfl
  | some dirs =>
    simp only [Option.map_some']
    congr 1
    rw [h]
    congr 1
    exact List.foldl_ext _ _ _ (fun acc d _ => by rw [h])

lemma validateFiles_congr (projectDir : String) (fs fs' : FS) (A : Finset String)
    (h : ∀ r, read_codeowners_file fs' r = read_codeowners_file fs r)
    (l : List String) :
    validateFiles projectDir fs' A l = validateFiles projectDir fs A l := by
  induction l with
  | nil => rfl
  | cons f rest ih =>
    simp only [validateFiles]
    rw [get_codeowners_congr projectDir fs fs' h f, ih]

lemma validate_approvals_congr (projectDir : String) (fs fs' : FS)
    (h : ∀ r, read_codeowners_file fs' r = read_codeowners_file fs r)
    (approvers changedFiles : List String) :
    validate_approvals projectDir fs' approvers changedFiles =
      validate_approvals projectDir fs approvers changedFiles := by
  unfold validate_approvals
  by_cases h1 : approvers = []
  · simp [h1]
  · by_cases h2 : changedFiles = []
    · simp [h1, h2]
    · rw [if_neg h1, if_neg h2, if_neg h1, if_neg h2,
        validateFiles_congr projectDir fs fs' approvers.toFinset h changedFiles]

/-- C9: a manifest read that fails for a reason other than absence (e.g. a
permission error) contributes an empty owner set, leaves a non-empty
diagnostic that a cleanly absent file does not leave, and the whole
validation run proceeds exactly as if that manifest were absent — it is not
aborted. -/
theorem manifest_read_error_degrades_to_empty
    (projectDir q e : String) (fs : FS) (approvers changedFiles : List String)
    (h : fs q = ReadResult.err e) :
    read_codeowners_file fs q = ∅ ∧
    read_codeowners_diags fs q ≠ [] ∧
    ∀ fs' : FS, (∀ r, r ≠ q → fs' r = fs r) → fs' q = ReadResult.absent →
      read_codeowners_diags fs' q = [] ∧
      validate_approvals projectDir fs' approvers changedFiles =
        validate_approvals projectDir fs approvers changedFiles := by
  refine ⟨?_, ?_, ?_⟩
  · simp [read_codeowners_file, h]
  · simp [read_codeowners_diags, h]
  · intro fs' hother habs
    have hreads : ∀ r, read_codeowners_file fs' r = read_codeowners_file fs r := by
      intro r
      by_cases hr : r = q
      · subst hr; simp [read_codeowners_file, h, habs]
      · simp [read_codeowners_file, hother r hr]
    exact ⟨by simp [read_codeowners_diags, habs],
      validate_approvals_congr projectDir fs fs' hreads approvers changedFiles⟩

/-- Witness for C9: a permission error on the `src/` manifest behaves like
a missing manifest for the run on `src/a.txt`. -/
theorem manifest_read_error_degrades_to_empty_witness :
    fsErrSrc "./src/CODEOWNERS.md" = ReadResult.err "Permission denied" ∧
    (read_codeowners_file fsErrSrc "./src/CODEOWNERS.md" = ∅ ∧
     read_codeowners_diags fsErrSrc "./src/CODEOWNERS.md" ≠ [] ∧
     ∀ fs' : FS, (∀ r, r ≠ "./src/CODEOWNERS.md" → fs' r = fsErrSrc r) →
       fs' "./src/CODEOWNERS.md" = ReadResult.absent →
       read_codeowners_diags fs' "./src/CODEOWNERS.md" = [] ∧
       validate_approvals "." fs' ["alice"] ["src/a.txt"] =
         validate_approvals "." fsErrSrc ["alice"] ["src/a.txt"]) :=
  ⟨by decide,
   manifest_read_error_degrades_to_empty "." "./src/CODEOWNERS.md"
     "Permission denied" fsErrSrc ["alice"] ["src/a.txt"] (by decide)⟩

/-! ### C10: termination of the ancestor walk -/

lemma walkFuel_abs2_none : ∀ (n : Nat) (segs : List String),
    walkFuel n ⟨RootKind.abs2, segs⟩ = none := by
  intro n
  induction n with
  | zero => intro segs; rfl
  | succ n ih =>
    intro segs
    have hstop : stopDir ⟨RootKind.abs2, segs⟩ = false := by
      simp [stopDir]
    by_cases hsegs : segs = ([] : List String)
    · subst hsegs
      have hpar : pathParent ⟨RootKind.abs2, []⟩ = ⟨RootKind.abs2, []⟩ := by
        simp [pathParent]
      simp [walkFuel, hstop, hpar, ih []]
    · have hpar : pathParent ⟨RootKind.abs2, segs⟩ = ⟨RootKind.abs2, segs.dropLast⟩ := by
        simp [pathParent, hsegs]
      simp [walkFuel, hstop, hpar, ih segs.dropLast]

/-- C10 counterexample: for the input path `//a.txt` — whose
`PurePosixPath` parent is the POSIX double-slash root `//`, a fixed point of
`parent` that equals neither `Path('.')` nor `Path('/')` — the walk loop
never exits, whatever its fuel.  The parent chain of a `//`-rooted path
never reaches `.` or `/`, so the claim fails as stated. -/
theorem walk_diverges_on_double_slash_root :
    ¬ ∃ (n : Nat) (dirs : List PPath),
      walkFuel n (pathParent (parsePath "//a.txt")) = some dirs := by
  rintro ⟨n, dirs, hw⟩
  have hp : pathParent (parsePath "//a.txt") = ⟨RootKind.abs2, []⟩ := by decide
  rw [hp, walkFuel_abs2_none n []] at hw
  exact Option.noConfusion hw

lemma pathParent_root (p : PPath) : (pathParent p).root = p.root := by
  unfold pathParent
  split <;> rfl

lemma walkFuel_terminates (k : RootKind) (hk : k ≠ RootKind.abs2)
    (segs : List String) :
    ∃ dirs, walkFuel (segs.length + 1) ⟨k, segs⟩ = some dirs ∧ ⟨k, []⟩ ∈ dirs := by
  induction segs using List.reverseRecOn with
  | nil =>
    have hstop : stopDir ⟨k, []⟩ = true := by
      cases k
      · rfl
      · rfl
      · exact absurd rfl hk
    exact ⟨[⟨k, []⟩], by simp [walkFuel, hstop], by simp⟩
  | append_singleton as a ih =>
    obtain ⟨dirs, hd, hm⟩ := ih
    have hstop : stopDir ⟨k, as ++ [a]⟩ = false := by
      simp [stopDir]
    have hpar : pathParent ⟨k, as ++ [a]⟩ = ⟨k, as⟩ := by
      simp [pathParent]
    refine ⟨⟨k, as ++ [a]⟩ :: dirs, ?_, List.mem_cons_of_mem _ hm⟩
    have hlen : (as ++ [a]).length + 1 = as.length + 1 + 1 := by simp
    rw [hlen, walkFuel, hstop]
    rw [if_neg (by simp), hpar, hd]
    rfl

/-- C10 amended: for every input file path that does not begin with exactly
two slashes (no `//` root), the walk loop terminates — the parent chain
reaches `.` for relative inputs or `/` for absolute ones — and the loop's
exit test succeeds at exactly the two `parent`-fixed points `.` and `/`. -/
theorem walk_terminates_off_double_slash (filePath : String)
    (h : (parsePath filePath).root ≠ RootKind.abs2) :
    (∃ dirs, walkChain (pathParent (parsePath filePath)) = some dirs ∧
      ((⟨RootKind.rel, []⟩ : PPath) ∈ dirs ∨ (⟨RootKind.abs, []⟩ : PPath) ∈ dirs)) ∧
    (∀ p : PPath, stopDir p = true ↔
      (p = ⟨RootKind.rel, []⟩ ∨ p = ⟨RootKind.abs, []⟩)) ∧
    pathParent ⟨RootKind.rel, []⟩ = ⟨RootKind.rel, []⟩ ∧
    pathParent ⟨RootKind.abs, []⟩ = ⟨RootKind.abs, []⟩ := by
  refine ⟨?_, ?_, by simp [pathParent], by simp [pathParent]⟩
  · have hroot : (pathParent (parsePath filePath)).root = (parsePath filePath).root :=
      pathParent_root _
    obtain ⟨dirs, hd, hm⟩ :=
      walkFuel_terminates (pathParent (parsePath filePath)).root
        (by rw [hroot]; exact h) (pathParent (parsePath filePath)).segs
    refine ⟨dirs, hd, ?_⟩
    rcases hk : (pathParent (parsePath filePath)).root with _ | _ | _
    · exact Or.inl (by rw [hk] at hm; exact hm)
    · exact Or.inr (by rw [hk] at hm; exact hm)
    · exact absurd (by rw [← hk, hroot]) h
  · intro p
    simp [stopDir]

/-- Witness for the amended C10 at a relative path. -/
theorem walk_terminates_off_double_slash_witness :
    (parsePath "src/a.txt").root ≠ RootKind.abs2 ∧
    ((∃ dirs, walkChain (pathParent (parsePath "src/a.txt")) = some dirs ∧
      ((⟨RootKind.rel, []⟩ : PPath) ∈ dirs ∨ (⟨RootKind.abs, []⟩ : PPath) ∈ dirs)) ∧
    (∀ p : PPath, stopDir p = true ↔
      (p = ⟨RootKind.rel, []⟩ ∨ p = ⟨RootKind.abs, []⟩)) ∧
    pathParent ⟨RootKind.rel, []⟩ = ⟨RootKind.rel, []⟩ ∧
    pathParent ⟨RootKind.abs, []⟩ = ⟨RootKind.abs, []⟩) :=
  ⟨by decide, walk_terminates_off_double_slash "src/a.txt" (by decide)⟩

/-! ### C7: there is no per-directory cache -/

/-- C7 counterexample: resolving the owners of `src/a.txt` twice in one run
opens the full list of manifest locations again the second time — in
particular the root manifest path `./CODEOWNERS.md` is read once per
resolution, twice in total — so a repeated query does re-read storage. -/
theorem resolve_second_query_rereads_storage :
    resolveTwiceReads "." "src/a.txt" =
      some ["./src/CODEOWNERS.md", "././CODEOWNERS.md", "./CODEOWNERS.md",
        "./src/CODEOWNERS.md", "././CODEOWNERS.md", "./CODEOWNERS.md"] ∧
    List.count "./CODEOWNERS.md"
      ["./src/CODEOWNERS.md", "././CODEOWNERS.md", "./CODEOWNERS.md",
        "./src/CODEOWNERS.md", "././CODEOWNERS.md", "./CODEOWNERS.md"] = 2 := by
  constructor
  · rfl
  · rfl

/-- C7 amended: resolving the same file's owners twice within one run does
yield identical owner sets (reads are pure and manifests immutable for the
run), but there is no cache: the second resolution performs the same
non-empty list of storage reads over again, rather than no reads. -/
theorem resolve_idempotent_but_rereads (projectDir filePath : String)
    (l : List String) (h : resolveReads projectDir filePath = some l) :
    (∀ (fs : FS) (s₁ s₂ : Finset String),
      resolveTwice projectDir fs filePath = some (s₁, s₂) → s₁ = s₂) ∧
    resolveTwiceReads projectDir filePath = some (l ++ l) ∧ l ≠ [] := by
  refine ⟨?_, ?_, ?_⟩
  · intro fs s₁ s₂ ht
    unfold resolveTwice at ht
    cases hg : get_codeowners_for_file projectDir fs filePath with
    | none => rw [hg] at ht; exact absurd ht (by simp)
    | some s =>
      rw [hg] at ht
      have ht' : some (s, s) = some (s₁, s₂) := ht
      injection ht' with hp
      exact ((Prod.ext_iff.mp hp).1.symm).trans (Prod.ext_iff.mp hp).2
  · unfold resolveTwiceReads
    rw [h]
  · unfold resolveReads at h
    rw [Option.map_eq_some'] at h
    obtain ⟨dirs, hdirs, hl⟩ := h
    simp [← hl]

/-- Witness for the amended C7 at a depth-one file. -/
theorem resolve_idempotent_but_rereads_witness :
    resolveReads "." "src/a.txt" =
      some ["./src/CODEOWNERS.md", "././CODEOWNERS.md", "./CODEOWNERS.md"] ∧
    ((∀ (fs : FS) (s₁ s₂ : Finset String),
        resolveTwice "." fs "src/a.txt" = some (s₁, s₂) → s₁ = s₂) ∧
      resolveTwiceReads "." "src/a.txt" =
        some (["./src/CODEOWNERS.md", "././CODEOWNERS.md", "./CODEOWNERS.md"] ++
          ["./src/CODEOWNERS.md", "././CODEOWNERS.md", "./CODEOWNERS.md"]) ∧
      ["./src/CODEOWNERS.md", "././CODEOWNERS.md", "./CODEOWNERS.md"] ≠ ([] : List String)) :=
  ⟨by rfl, resolve_idempotent_but_rereads "." "src/a.txt"
    ["./src/CODEOWNERS.md", "././CODEOWNERS.md", "./CODEOWNERS.md"] (by rfl)⟩

/-! ### C8: which manifest locations the walk opens -/

lemma toList_append (a b : String) : (a ++ b).toList = a.toList ++ b.toList := rfl

lemma slash_toList : "/".toList = ['/'] := rfl

lemma string_ne_empty_of_toList (s : String) (h : s.toList ≠ []) : s ≠ "" := by
  intro he
  subst he
  exact h rfl

lemma isPrefixOf_append_self (l₁ l₂ : List Char) :
    l₁.isPrefixOf (l₁ ++ l₂) = true := by
  induction l₁ with
  | nil => simp [List.isPrefixOf]
  | cons a as ih => simp [List.isPrefixOf, ih]

lemma posixJoin_eq_append (a b : String) (hb : startsWithSlash b = false)
    (ha1 : a ≠ "") (ha2 : endsWithSlash a = false) :
    posixJoin a b = a ++ "/" ++ b := by
  unfold posixJoin
  rw [hb, if_neg (by simp), if_neg ha1, ha2, if_neg (by simp)]

lemma startsWithSlash_eq_false (s : String) (c : Char) (cs : List Char)
    (hs : s.toList = c :: cs) (hc : c ≠ '/') : startsWithSlash s = false := by
  unfold startsWithSlash
  rw [hs]
  simp [hc]

lemma endsWithSlash_eq_false_concat (s : String) (l : List Char) (c : Char)
    (hs : s.toList = l ++ [c]) (hc : c ≠ '/') : endsWithSlash s = false := by
  unfold endsWithSlash
  rw [hs, List.getLast?_concat]
  simp [hc]

lemma parsePath_segs_wf (s t : String) (ht : t ∈ (parsePath s).segs) :
    t.toList ≠ [] ∧ ∀ c ∈ t.toList, c ≠ '/' := by
  simp only [parsePath] at ht
  rw [List.mem_map] at ht
  obtain ⟨piece, hpf, rfl⟩ := ht
  rw [List.mem_filter] at hpf
  obtain ⟨hmem, hpred⟩ := hpf
  constructor
  · have h1 : piece ≠ [] := by simpa using ((Bool.and_eq_true _ _).mp hpred).1
    exact h1
  · intro c hc
    have := mem_splitChars_no_sep _ s.toList piece hmem c hc
    simpa using this

lemma joinSegs_toList_ne_nil (segs : List String) (hne : segs ≠ [])
    (hwf : ∀ t ∈ segs, t.toList ≠ []) : (joinSegs segs).toList ≠ [] := by
  cases segs with
  | nil => exact absurd rfl hne
  | cons t ts =>
    cases ts with
    | nil => exact hwf t (by simp)
    | cons u us =>
      show (t ++ "/" ++ joinSegs (u :: us)).toList ≠ []
      rw [toList_append, toList_append]
      simp [hwf t (by simp)]

lemma startsWithSlash_joinSegs (t : String) (ts : List String)
    (hwf : t.toList ≠ []) (hsl : ∀ c ∈ t.toList, c ≠ '/') :
    startsWithSlash (joinSegs (t :: ts)) = false := by
  obtain ⟨c, cs, hc⟩ : ∃ c cs, t.toList = c :: cs := by
    cases h : t.toList with
    | nil => exact absurd h hwf
    | cons c cs => exact ⟨c, cs, rfl⟩
  have hcns : c ≠ '/' := hsl c (by rw [hc]; exact List.mem_cons_self _ _)
  cases ts with
  | nil => exact startsWithSlash_eq_false t c cs hc hcns
  | cons u us =>
    have h1 : (joinSegs (t :: u :: us)).toList
        = c :: (cs ++ '/' :: (joinSegs (u :: us)).toList) := by
      show (t ++ "/" ++ joinSegs (u :: us)).toList = _
      rw [toList_append, toList_append, slash_toList, hc, List.append_assoc]
      rfl
    exact startsWithSlash_eq_false _ c _ h1 hcns

lemma endsWithSlash_joinSegs (segs : List String) (hne : segs ≠ [])
    (hwf : ∀ t ∈ segs, t.toList ≠ [])
    (hsl : ∀ t ∈ segs, ∀ c ∈ t.toList, c ≠ '/') :
    endsWithSlash (joinSegs segs) = false := by
  induction segs with
  | nil => exact absurd rfl hne
  | cons t ts ih =>
    cases ts with
    | nil =>
      obtain ⟨l, c, hc⟩ : ∃ l c, t.toList = l ++ [c] := by
        rcases List.eq_nil_or_concat t.toList with h | ⟨l, c, h⟩
        · exact absurd h (hwf t (by simp))
        · exact ⟨l, c, by rw [h, List.concat_eq_append]⟩
      exact endsWithSlash_eq_false_concat t l c hc
        (hsl t (by simp) c (by rw [hc]; simp))
    | cons u us =>
      have hrec := ih (by simp) (fun x hx => hwf x (List.mem_cons_of_mem _ hx))
        (fun x hx => hsl x (List.mem_cons_of_mem _ hx))
      unfold endsWithSlash at hrec ⊢
      have hJne : (joinSegs (u :: us)).toList ≠ [] :=
        joinSegs_toList_ne_nil (u :: us) (by simp)
          (fun x hx => hwf x (List.mem_cons_of_mem _ hx))
      have h1 : (joinSegs (t :: u :: us)).toList
          = (t.toList ++ ['/']) ++ (joinSegs (u :: us)).toList := by
        show (t ++ "/" ++ joinSegs (u :: us)).toList = _
        rw [toList_append, toList_append, slash_toList]
      rw [h1, List.getLast?_append_of_ne_nil _ hJne]
      exact hrec

lemma splitChars_joinSegs (segs : List String) (hne : segs ≠ [])
    (hsl : ∀ t ∈ segs, ∀ c ∈ t.toList, c ≠ '/') :
    splitChars (fun c => c = '/') (joinSegs segs).toList = segs.map String.toList := by
  induction segs with
  | nil => exact absurd rfl hne
  | cons t ts ih =>
    cases ts with
    | nil =>
      show splitChars (fun c => c = '/') t.toList = [t.toList]
      apply splitChars_no_sep
      intro c hc
      simpa using hsl t (by simp) c hc
    | cons u us =>
      have h1 : (joinSegs (t :: u :: us)).toList
          = t.toList ++ '/' :: (joinSegs (u :: us)).toList := by
        show (t ++ "/" ++ joinSegs (u :: us)).toList = _
        rw [toList_append, toList_append, slash_toList, List.append_assoc]
        rfl
      rw [h1, splitChars_append (fun c => c = '/') '/' (by simp) _ _,
        splitChars_no_sep _ _ (fun c hc => by simpa using hsl t (by simp) c hc),
        ih (by simp) (fun x hx => hsl x (List.mem_cons_of_mem _ hx))]
      rfl

lemma belowRoot_of_toList (pd q : String) (rest : List Char)
    (hq : q.toList = pd.toList ++ '/' :: rest)
    (hcomp : ['.', '.'] ∉ splitChars (fun c => c = '/') rest) :
    belowRoot pd q = true := by
  unfold belowRoot
  rw [hq]
  have h1 : pd.toList ++ '/' :: rest = (pd.toList ++ ['/']) ++ rest := by simp
  have h2 : ((pd.toList ++ ['/']) ++ rest).drop (pd.toList.length + 1) = rest := by
    have h3 : (pd.toList ++ ['/']).length = pd.toList.length + 1 := by simp
    rw [← h3, List.drop_left]
  rw [h1, h2, isPrefixOf_append_self]
  simpa using hcomp

lemma belowRoot_rootManifest (pd : String) (hpd1 : pd ≠ "")
    (hpd2 : endsWithSlash pd = false) :
    belowRoot pd (posixJoin pd "CODEOWNERS.md") = true := by
  rw [posixJoin_eq_append pd "CODEOWNERS.md" (by decide) hpd1 hpd2]
  apply belowRoot_of_toList pd _ "CODEOWNERS.md".toList
  · rw [toList_append, toList_append, slash_toList, List.append_assoc]
    rfl
  · decide

lemma belowRoot_manifestPath (pd : String) (d : PPath)
    (hpd1 : pd ≠ "") (hpd2 : endsWithSlash pd = false)
    (hroot : d.root = RootKind.rel)
    (hwf : ∀ t ∈ d.segs, t.toList ≠ [] ∧ ∀ c ∈ t.toList, c ≠ '/')
    (hdots : ∀ t ∈ d.segs, t ≠ "..") :
    belowRoot pd (manifestPath pd d) = true := by
  obtain ⟨k, segs⟩ := d
  simp only at hroot hwf hdots
  subst hroot
  cases segs with
  | nil =>
    unfold manifestPath
    rw [show pathStr ⟨RootKind.rel, []⟩ = "." from rfl,
      posixJoin_eq_append pd "." (by decide) hpd1 hpd2]
    have hA1 : pd ++ "/" ++ "." ≠ "" := by
      apply string_ne_empty_of_toList
      rw [toList_append]
      simp
    have hA2 : endsWithSlash (pd ++ "/" ++ ".") = false := by
      apply endsWithSlash_eq_false_concat _ (pd.toList ++ ['/']) '.'
      · rw [toList_append, toList_append, slash_toList]
        rfl
      · decide
    rw [posixJoin_eq_append _ "CODEOWNERS.md" (by decide) hA1 hA2]
    apply belowRoot_of_toList pd _ ('.' :: '/' :: "CODEOWNERS.md".toList)
    · rw [toList_append, toList_append, toList_append, toList_append, slash_toList]
      simp
    · decide
  | cons t ts =>
    unfold manifestPath
    rw [show pathStr ⟨RootKind.rel, t :: ts⟩ = joinSegs (t :: ts) from rfl]
    have hwfe : ∀ x ∈ t :: ts, x.toList ≠ [] := fun x hx => (hwf x hx).1
    have hsl : ∀ x ∈ t :: ts, ∀ c ∈ x.toList, c ≠ '/' := fun x hx => (hwf x hx).2
    rw [posixJoin_eq_append pd _
      (startsWithSlash_joinSegs t ts (hwfe t (by simp)) (hsl t (by simp))) hpd1 hpd2]
    have hJne : (joinSegs (t :: ts)).toList ≠ [] :=
      joinSegs_toList_ne_nil _ (by simp) hwfe
    have hA1 : pd ++ "/" ++ joinSegs (t :: ts) ≠ "" := by
      apply string_ne_empty_of_toList
      rw [toList_append, toList_append]
      simp
    have hA2 : endsWithSlash (pd ++ "/" ++ joinSegs (t :: ts)) = false := by
      unfold endsWithSlash
      rw [toList_append, toList_append,
        List.getLast?_append_of_ne_nil _ hJne]
      have hJ := endsWithSlash_joinSegs (t :: ts) (by simp) hwfe hsl
      unfold endsWithSlash at hJ
      exact hJ
    rw [posixJoin_eq_append _ "CODEOWNERS.md" (by decide) hA1 hA2]
    apply belowRoot_of_toList pd _
      ((joinSegs (t :: ts)).toList ++ '/' :: "CODEOWNERS.md".toList)
    · rw [toList_append, toList_append, toList_append, toList_append, slash_toList]
      simp
    · rw [splitChars_append (fun c => c = '/') '/' (by simp) _ _,
        splitChars_joinSegs (t :: ts) (by simp) hsl]
      intro hmem
      rw [List.mem_append] at hmem
      rcases hmem with hmem | hmem
      · rw [List.mem_map] at hmem
        obtain ⟨x, hx, hxe⟩ := hmem
        apply hdots x hx
        have hx2 : x = String.mk ['.', '.'] := by
          cases x with
          | mk data =>
            simp only [String.toList] at hxe
            rw [hxe]
        exact hx2.trans (by decide)
      · exact absurd hmem (by decide)

lemma walkFuel_mem_wf (n : Nat) (p : PPath) (dirs : List PPath)
    (h : walkFuel n p = some dirs) :
    ∀ d ∈ dirs, d.root = p.root ∧ ∀ x ∈ d.segs, x ∈ p.segs := by
  induction n generalizing p dirs with
  | zero => exact absurd h (by simp [walkFuel])
  | succ n ih =>
    rw [walkFuel] at h
    by_cases hstop : stopDir p = true
    · rw [if_pos hstop] at h
      injection h with hd
      subst hd
      intro d hd
      rw [List.mem_singleton] at hd
      subst hd
      exact ⟨rfl, fun x hx => hx⟩
    · rw [if_neg hstop, Option.map_eq_some'] at h
      obtain ⟨dirs', hdirs', rfl⟩ := h
      intro d hd
      rcases List.mem_cons.mp hd with rfl | hd
      · exact ⟨rfl, fun x hx => hx⟩
      · have hdd := ih (pathParent p) dirs' hdirs' d hd
        refine ⟨hdd.1.trans (pathParent_root p), fun x hx => ?_⟩
        have hx' := hdd.2 x hx
        have hp : (pathParent p).segs = p.segs ∨
            (pathParent p).segs = p.segs.dropLast := by
          unfold pathParent
          split
          · exact Or.inl rfl
          · exact Or.inr rfl
        rcases hp with hp | hp
        · rw [hp] at hx'; exact hx'
        · rw [hp] at hx'; exact (List.dropLast_sublist _).subset hx'

/-- C8 counterexample: the resolver performs no normalisation, and both an
absolute input path and a `..` input path make the walk read manifest
locations outside the repository root `repo`: `/etc/x.txt` reads
`/etc/CODEOWNERS.md` (the absolute component makes `os.path.join` discard
the root entirely) and `../x.txt` reads `repo/../CODEOWNERS.md`. -/
theorem resolve_escapes_root_on_unnormalized_path :
    resolveReads "repo" "/etc/x.txt" =
      some ["/etc/CODEOWNERS.md", "/CODEOWNERS.md", "repo/CODEOWNERS.md"] ∧
    belowRoot "repo" "/etc/CODEOWNERS.md" = false ∧
    resolveReads "repo" "../x.txt" =
      some ["repo/../CODEOWNERS.md", "repo/./CODEOWNERS.md", "repo/CODEOWNERS.md"] ∧
    belowRoot "repo" "repo/../CODEOWNERS.md" = false := by
  refine ⟨by rfl, by rfl, by rfl, by rfl⟩

/-- C8 amended: the resolver does not normalise its input.  For a relative
input path with no `..` segment — and a non-empty repository root with no
trailing slash — every manifest location the walk reads does lie at or
below the repository root; absolute inputs and `..` segments escape it
(see the counterexample). -/
theorem resolve_reads_below_root_of_relative
    (projectDir filePath : String) (reads : List String)
    (hpd1 : projectDir ≠ "") (hpd2 : endsWithSlash projectDir = false)
    (hrel : (parsePath filePath).root = RootKind.rel)
    (hdots : ".." ∉ (parsePath filePath).segs)
    (hr : resolveReads projectDir filePath = some reads) :
    ∀ q ∈ reads, belowRoot projectDir q = true := by
  unfold resolveReads at hr
  rw [Option.map_eq_some'] at hr
  obtain ⟨dirs, hdirs, rfl⟩ := hr
  intro q hq
  rw [List.mem_append] at hq
  rcases hq with hq | hq
  · rw [List.mem_map] at hq
    obtain ⟨d, hd, rfl⟩ := hq
    have hwf0 := walkFuel_mem_wf _ _ _ hdirs d hd
    have hdroot : d.root = RootKind.rel := by
      rw [hwf0.1, pathParent_root, hrel]
    have hsub : ∀ x ∈ d.segs, x ∈ (parsePath filePath).segs := by
      intro x hx
      have hx' := hwf0.2 x hx
      have hp : (pathParent (parsePath filePath)).segs = (parsePath filePath).segs ∨
          (pathParent (parsePath filePath)).segs = (parsePath filePath).segs.dropLast := by
        unfold pathParent
        split
        · exact Or.inl rfl
        · exact Or.inr rfl
      rcases hp with hp | hp
      · rw [hp] at hx'; exact hx'
      · rw [hp] at hx'; exact (List.dropLast_sublist _).subset hx'
    exact belowRoot_manifestPath projectDir d hpd1 hpd2 hdroot
      (fun t ht => parsePath_segs_wf filePath t (hsub t ht))
      (fun t ht hdd => hdots (hdd ▸ hsub t ht))
  · rw [List.mem_singleton] at hq
    subst hq
    exact belowRoot_rootManifest projectDir hpd1 hpd2

/-- Witness for the amended C8 at a clean relative path. -/
theorem resolve_reads_below_root_of_relative_witness :
    ("repo" : String) ≠ "" ∧ endsWithSlash "repo" = false ∧
    (parsePath "src/a.txt").root = RootKind.rel ∧
    (".." : String) ∉ (parsePath "src/a.txt").segs ∧
    resolveReads "repo" "src/a.txt" =
      some ["repo/src/CODEOWNERS.md", "repo/./CODEOWNERS.md", "repo/CODEOWNERS.md"] ∧
    ∀ q ∈ ["repo/src/CODEOWNERS.md", "repo/./CODEOWNERS.md", "repo/CODEOWNERS.md"],
      belowRoot "repo" q = true :=
  ⟨by decide, by decide, by decide, by decide, by rfl,
   resolve_reads_below_root_of_relative "repo" "src/a.txt"
     ["repo/src/CODEOWNERS.md", "repo/./CODEOWNERS.md", "repo/CODEOWNERS.md"]
     (by decide) (by decide) (by decide) (by decide) (by rfl)⟩
